import Mathlib

/-!
Verification of the Bitfinex exchange adapter (`src/exchange/bitfinex.cpp`).

The adapter is shallowly embedded: jansson JSON documents become the
inductive type `Json`; C doubles are modelled as exact rationals `ℚ`;
code that can throw a C++ exception (`std::stod`) is modelled in
`Option`, with `none` standing for a thrown exception escaping the
adapter; the HTTP transport is an explicit function argument and the
network requests an adapter operation performs are returned as an
explicit trace.
-/

/-- A parsed jansson JSON document (`json_t`).  Objects keep their fields
as an association list; jansson's `json_object_get` is key lookup. -/
inductive Json : Type where
  | jnull : Json
  | jbool : Bool → Json
  | jint : ℤ → Json
  | jreal : ℚ → Json
  | jstr : String → Json
  | jarr : List Json → Json
  | jobj : List (String × Json) → Json

/-- jansson `json_object_get(root, key)`: field lookup on an object,
`NULL` (here `none`) on a non-object or a missing key. -/
def jsonObjectGet (root : Json) (key : String) : Option Json :=
  match root with
  | Json.jobj fields => fields.lookup key
  | _ => none

/-- jansson `json_string_value`: the string contents when the (possibly
`NULL`) value is a JSON string, `NULL` (`none`) otherwise. -/
def jsonStringValue (v : Option Json) : Option String :=
  match v with
  | some (Json.jstr s) => some s
  | _ => none

/-- jansson `json_is_false`: true exactly when the (possibly `NULL`)
value is the JSON `false` value. -/
def jsonIsFalse (v : Option Json) : Bool :=
  match v with
  | some (Json.jbool false) => true
  | _ => false

/-- jansson `json_integer_value`: the integer when the (possibly `NULL`)
value is a JSON integer, `0` otherwise. -/
def jsonIntegerValue (v : Option Json) : ℤ :=
  match v with
  | some (Json.jint n) => n
  | _ => 0

/-- jansson `json_array_size` / element access: the element list of an
array, `[]` for a non-array (whose `json_array_size` is `0`). -/
def jsonArrayElems (root : Json) : List Json :=
  match root with
  | Json.jarr xs => xs
  | _ => []

/-- The options fragment `"\"order_id\":" + orderId` built by
`isOrderComplete` before calling `authRequest`. -/
def orderIdOptions (orderId : String) : String :=
  "\"order_id\":" ++ orderId

/-- `Bitfinex::isOrderComplete(params, orderId)`.  The authenticated
transport is the explicit argument `respond : path → options → response`;
the second component of the result is the trace of `(path, options)`
network requests the call performed. -/
def isOrderComplete (respond : String → String → Json) (orderId : String) :
    Bool × List (String × String) :=
  if orderId = "0" then (true, [])
  else
    let options := orderIdOptions orderId
    let root := respond "/v1/order/status" options
    (jsonIsFalse (jsonObjectGet root "is_live"), [("/v1/order/status", options)])

/-- `authRequest`'s nonce, from `gettimeofday`'s seconds and microseconds:
`unsigned long long nonce = (tv.tv_sec * 1000.0) + (tv.tv_usec * 0.001) + 0.5`,
i.e. the truncation to an integer of `sec·1000 + usec/1000 + 1/2`,
computed here exactly over the rationals. -/
def authNonce (sec usec : ℕ) : ℕ :=
  (2 * (sec * 1000000 + usec) + 1000) / 2000

/-- The nonces emitted by a sequence of successive `authRequest` calls
that observe the given wall-clock values `(sec, usec)`. -/
def authNonces (clocks : List (ℕ × ℕ)) : List ℕ :=
  clocks.map (fun c => authNonce c.1 c.2)

/-- One side of the order book, best price first, each level already
parsed to its `(price, volume)` pair (doubles modelled as exact
rationals). -/
abbrev BookSide := List (ℚ × ℚ)

/-- The loop of `getLimitPrice`: `p` is the price variable (initially
`0.0`), `tmpVol` the accumulated volume; every level overwrites `p` and
adds its volume, and the loop breaks as soon as `tmpVol` reaches the
threshold. -/
def getLimitPriceLoop (threshold : ℚ) : ℚ → ℚ → BookSide → ℚ
  | _, p, [] => p
  | tmpVol, _, (price, vol) :: rest =>
      if tmpVol + vol ≥ threshold then price
      else getLimitPriceLoop threshold (tmpVol + vol) price rest

/-- `Bitfinex::getLimitPrice(params, volume, isBid)` on an already-fetched
book side: walk the levels best-first accumulating volume and return the
price of the level at which the accumulated volume reaches
`fabs(volume) * params.orderBookFactor`; if the book runs out first, the
last level's price; on an empty book the initial `0.0`. -/
def getLimitPrice (orderBookFactor volume : ℚ) (book : BookSide) : ℚ :=
  getLimitPriceLoop (|volume| * orderBookFactor) 0 0 book

/-- The cumulative volume of the first `n` levels of a book side. -/
def prefixVol (book : BookSide) (n : ℕ) : ℚ :=
  ((book.take n).map Prod.snd).sum

/-- Whitespace as skipped by `strtod` (C `isspace` in the default locale). -/
def isSpaceChar (c : Char) : Bool :=
  c == ' ' || c == '\t' || c == '\n' || c == '\x0b' || c == '\x0c' || c == '\r'

/-- Greedy decimal-digit scanner underlying the numeric-string models:
returns the accumulated value, the number of digits consumed, and the
remaining characters. -/
def parseDigitsAux : ℕ → ℕ → List Char → ℕ × ℕ × List Char
  | acc, cnt, c :: cs =>
      if c.isDigit then parseDigitsAux (acc * 10 + (c.toNat - 48)) (cnt + 1) cs
      else (acc, cnt, c :: cs)
  | acc, cnt, [] => (acc, cnt, [])

/-- The digits of an exponent part, `none` when the first character is not
a digit (in which case `strtod` does not consume the exponent marker). -/
def expDigits : List Char → Option ℕ
  | d :: ds => if d.isDigit then some (parseDigitsAux 0 0 (d :: ds)).1 else none
  | [] => none

/-- The scale factor contributed by an optional `e`/`E` exponent suffix of
a `strtod` input; `1` when no well-formed exponent follows the mantissa. -/
def stodExpFactor : List Char → ℚ
  | c :: cs =>
      if c == 'e' || c == 'E' then
        match cs with
        | '-' :: ds =>
            match expDigits ds with
            | some e => (10 : ℚ) ^ (-(e : ℤ))
            | none => 1
        | '+' :: ds =>
            match expDigits ds with
            | some e => (10 : ℚ) ^ (e : ℤ)
            | none => 1
        | ds =>
            match expDigits ds with
            | some e => (10 : ℚ) ^ (e : ℤ)
            | none => 1
      else 1
  | [] => 1

/-- The optional sign at the front of a `strtod` mantissa. -/
def stodSign : List Char → ℚ × List Char
  | '-' :: cs => (-1, cs)
  | '+' :: cs => (1, cs)
  | cs => (1, cs)

/-- Models `std::stod`: parse the longest decimal prefix (optional
whitespace, optional sign, digits with an optional decimal point,
optional exponent), ignoring any trailing characters; `none` models the
`std::invalid_argument` exception thrown when no conversion can be
performed.  The double result is modelled as its exact rational value;
hexadecimal, infinity and NaN forms never occur in the exchange's decimal
fields and are not modelled. -/
def stodQ (s : String) : Option ℚ :=
  let cs0 := s.data.dropWhile isSpaceChar
  let sign := (stodSign cs0).1
  let cs1 := (stodSign cs0).2
  let ipr := parseDigitsAux 0 0 cs1
  match ipr.2.2 with
  | '.' :: cs3 =>
      let fpr := parseDigitsAux 0 0 cs3
      if ipr.2.1 + fpr.2.1 = 0 then none
      else some (sign * ((ipr.1 : ℚ) + (fpr.1 : ℚ) / 10 ^ fpr.2.1) *
                 stodExpFactor fpr.2.2)
  | _ =>
      if ipr.2.1 = 0 then none
      else some (sign * (ipr.1 : ℚ) * stodExpFactor ipr.2.2)

/-- One side of `getQuote`:
`quote = json_string_value(json_object_get(root, key));`
`value = quote ? std::stod(quote) : 0.0;` — a missing or non-string field
defaults to `0.0`, a present string field goes through `std::stod`
(whose exception, modelled by `none`, escapes the adapter). -/
def quoteSide (root : Json) (key : String) : Option ℚ :=
  match jsonStringValue (jsonObjectGet root key) with
  | some s => stodQ s
  | none => some 0

/-- `Bitfinex::getQuote(params)` on the already-fetched ticker response:
extract `"bid"` then `"ask"` as above and return the pair. -/
def getQuote (root : Json) : Option (ℚ × ℚ) := do
  let bid ← quoteSide root "bid"
  let ask ← quoteSide root "ask"
  pure (bid, ask)

/-- `json_unpack_ex(entry, &err, 0, "\x7bs:s, s:s, s:s\x7d", "type", …,
"currency", …, "amount", …)`: succeeds exactly when the entry is an
object whose `type`, `currency` and `amount` fields are all present and
are strings (extra fields are allowed without `JSON_STRICT`). -/
def unpackBalanceEntry (e : Json) : Option (String × String × String) :=
  match e with
  | Json.jobj _ =>
      match jsonStringValue (jsonObjectGet e "type"),
            jsonStringValue (jsonObjectGet e "currency"),
            jsonStringValue (jsonObjectGet e "amount") with
      | some t, some c, some a => some (t, c, a)
      | _, _, _ => none
  | _ => none

/-- The scan loop of `getAvail` over the balance entries in the order the
code visits them: an entry that fails to unpack is logged and skipped; the
first entry with type `"trading"` and the requested currency has its
amount passed to `std::stod` and the loop breaks; if no entry matches the
initial `availability = 0.0` is returned. -/
def getAvailScan (currency : String) : List Json → Option ℚ
  | [] => some 0
  | e :: rest =>
      match unpackBalanceEntry e with
      | none => getAvailScan currency rest
      | some (t, c, a) =>
          if t = "trading" ∧ c = currency then stodQ a
          else getAvailScan currency rest

/-- `Bitfinex::getAvail(params, currency)` on the already-fetched balance
response: the loop `for (size_t i = json_array_size(root); i--;)` visits
the array from its highest index down to index `0`, i.e. in reverse array
order. -/
def getAvail (root : Json) (currency : String) : Option ℚ :=
  getAvailScan currency (jsonArrayElems root).reverse

/-- The character of a decimal digit (intended for `d < 10`). -/
def digitChar (d : ℕ) : Char := Char.ofNat (48 + d)

/-- The number of decimal digits of a natural number (`1` for `0`). -/
def digitCount (n : ℕ) : ℕ :=
  if n < 10 then 1 else digitCount (n / 10) + 1
termination_by n
decreasing_by omega

/-- The decimal digits of `n`, most significant first, prepended to
`acc`. -/
def natDigitsAux (n : ℕ) (acc : List Char) : List Char :=
  if n < 10 then digitChar n :: acc
  else natDigitsAux (n / 10) (digitChar (n % 10) :: acc)
termination_by n
decreasing_by omega

/-- Models `std::to_string` on an unsigned integer value. -/
def natRepr (n : ℕ) : String := String.mk (natDigitsAux n [])

/-- Models `std::to_string` on a `long long` value (as produced from
`json_integer_value`). -/
def intRepr (n : ℤ) : String :=
  if n < 0 then "-" ++ natRepr n.natAbs else natRepr n.natAbs

/-- The decimal exponent of a positive rational: the unique `e` with
`10^e ≤ q < 10^(e+1)` (meaningful for `q > 0`), computed from the digit
counts of `⌊q⌋` respectively `⌊1/q⌋`. -/
def qexp (q : ℚ) : ℤ :=
  if 1 ≤ q then (digitCount (⌊q⌋).toNat : ℤ) - 1
  else if (10 : ℚ) ^ (-((digitCount (⌊1 / q⌋).toNat : ℤ) - 1)) ≤ q
  then -((digitCount (⌊1 / q⌋).toNat : ℤ) - 1)
  else -((digitCount (⌊1 / q⌋).toNat : ℤ) - 1) - 1

/-- The 6-significant-digit mantissa and exponent of a positive rational,
rounded to nearest as printf does, renormalised when rounding carries into
a seventh digit. -/
def mant6 (q : ℚ) : ℕ × ℤ :=
  let e := qexp q
  let m := (⌊q * (10 : ℚ) ^ ((5 : ℤ) - e) + 1 / 2⌋).toNat
  if m = 1000000 then (100000, e + 1) else (m, e)

/-- Remove trailing `'0'` characters (printf `%g` strips trailing zeros of
the fractional part). -/
def stripZerosRight (ds : List Char) : List Char :=
  (ds.reverse.dropWhile (fun c => c == '0')).reverse

/-- The sign and digits of a `%g` exponent suffix (the exponent is
printed with at least two digits). -/
def expSuffixRest (e : ℤ) : List Char :=
  (if e < 0 then '-' else '+') ::
    (if e.natAbs < 10 then '0' :: natDigitsAux e.natAbs []
     else natDigitsAux e.natAbs [])

/-- The `e±XX` exponent suffix of `%g` scientific notation. -/
def expSuffix (e : ℤ) : List Char := 'e' :: expSuffixRest e

/-- Render a mantissa/exponent pair the way `%g` with precision 6 does:
fixed notation when the decimal exponent lies in `[-4, 6)`, scientific
notation otherwise, trailing fractional zeros stripped. -/
def renderG6 (m : ℕ) (e : ℤ) : List Char :=
  if e < -4 ∨ 6 ≤ e then
    match natDigitsAux m [] with
    | d1 :: rest =>
        d1 :: ((if stripZerosRight rest = [] then []
                else '.' :: stripZerosRight rest) ++ expSuffix e)
    | [] => ['0']
  else if e < 0 then
    '0' :: '.' :: (List.replicate ((-e).toNat - 1) '0' ++
      stripZerosRight (natDigitsAux m []))
  else
    (natDigitsAux m []).take (e.toNat + 1) ++
      (if stripZerosRight ((natDigitsAux m []).drop (e.toNat + 1)) = [] then []
       else '.' :: stripZerosRight ((natDigitsAux m []).drop (e.toNat + 1)))

/-- `%g` with precision 6 on a positive rational. -/
def formatG6Pos (q : ℚ) : List Char := renderG6 (mant6 q).1 (mant6 q).2

/-- Models C++ default `std::ostream` formatting of a `double`
(`operator<<` with the default precision 6, i.e. printf `%g`), with the
double's value taken as its exact rational value. -/
def formatG6 (q : ℚ) : String :=
  if q = 0 then "0"
  else if q < 0 then String.mk ('-' :: formatG6Pos (-q))
  else String.mk (formatG6Pos q)

/-- The number of significant digits shown by a rendered numeral: digit
characters of the mantissa part (before any exponent marker), not counting
leading zeros. -/
def sigCount (l : List Char) : ℕ :=
  (((l.takeWhile (fun c => c != 'e')).filter (fun c => c.isDigit)).dropWhile
    (fun c => c == '0')).length

/-- `sigCount` on a string. -/
def countSigDigits (s : String) : ℕ := sigCount s.data

/-- The options fragment built by `sendOrder`'s `ostringstream`:
`"symbol":"btcusd", "amount":"<quantity>", "price":"<price>",
"exchange":"bitfinex", "side":"<direction>", "type":"limit"`, with
quantity and price rendered by default stream formatting. -/
def sendOrderOptions (direction : String) (quantity price : ℚ) : String :=
  "\"symbol\":\"btcusd\", \"amount\":\"" ++ formatG6 quantity ++
  "\", \"price\":\"" ++ formatG6 price ++
  "\", \"exchange\":\"bitfinex\", \"side\":\"" ++ direction ++
  "\", \"type\":\"limit\""

/-- The order identifier returned by `sendOrder`:
`std::to_string(json_integer_value(json_object_get(root, "order_id")))`
on the order-creation response. -/
def sendOrderId (root : Json) : String :=
  intRepr (jsonIntegerValue (jsonObjectGet root "order_id"))

/-- Modelled from the spec: the base64 encoder/decoder of `utils/base64.h`
(not under `src/`); the spec requires that base64-encoding then decoding
yields the original bytes exactly.  Standard alphabet character table. -/
def base64Char (i : ℕ) : Char :=
  "ABCDEFGHIJKLMNOPQRSTUVWXYZabcdefghijklmnopqrstuvwxyz0123456789+/".data.getD
    i 'A'

/-- The 6-bit value of a base64 alphabet character, `none` for an invalid
character. -/
def sextetOf (c : Char) : Option ℕ :=
  (List.range 64).find? (fun i => base64Char i == c)

/-- Modelled from the spec: standard base64 encoding of a byte sequence,
three bytes per four output characters, `=`-padded. -/
def base64Encode : List ℕ → List Char
  | [] => []
  | [b1] => [base64Char (b1 / 4), base64Char (b1 % 4 * 16), '=', '=']
  | [b1, b2] => [base64Char (b1 / 4), base64Char (b1 % 4 * 16 + b2 / 16),
      base64Char (b2 % 16 * 4), '=']
  | b1 :: b2 :: b3 :: rest =>
      base64Char ((b1 * 65536 + b2 * 256 + b3) / 262144) ::
      base64Char ((b1 * 65536 + b2 * 256 + b3) / 4096 % 64) ::
      base64Char ((b1 * 65536 + b2 * 256 + b3) / 64 % 64) ::
      base64Char ((b1 * 65536 + b2 * 256 + b3) % 64) ::
      base64Encode rest

/-- Modelled from the spec: standard base64 decoding, inverse of
`base64Encode`; `none` on malformed input. -/
def base64Decode : List Char → Option (List ℕ)
  | [] => some []
  | c1 :: c2 :: c3 :: c4 :: rest =>
      if c3 = '=' then
        if c4 = '=' ∧ rest = [] then
          match sextetOf c1, sextetOf c2 with
          | some s1, some s2 => some [s1 * 4 + s2 / 16]
          | _, _ => none
        else none
      else if c4 = '=' then
        if rest = [] then
          match sextetOf c1, sextetOf c2, sextetOf c3 with
          | some s1, some s2, some s3 =>
              some [s1 * 4 + s2 / 16, s2 % 16 * 16 + s3 / 4]
          | _, _, _ => none
        else none
      else
        match sextetOf c1, sextetOf c2, sextetOf c3, sextetOf c4,
            base64Decode rest with
        | some s1, some s2, some s3, some s4, some tail =>
            some (((s1 * 262144 + s2 * 4096 + s3 * 64 + s4) / 65536) ::
                  ((s1 * 262144 + s2 * 4096 + s3 * 64 + s4) / 256 % 256) ::
                  ((s1 * 262144 + s2 * 4096 + s3 * 64 + s4) % 256) :: tail)
        | _, _, _, _, _ => none
  | _ => none

def openBraceChar : Char := Char.ofNat 123

def closeBraceChar : Char := Char.ofNat 125

/-- JSON insignificant whitespace. -/
def wsChar (c : Char) : Bool :=
  c == ' ' || c == '\t' || c == '\n' || c == '\r'

def skipWs (cs : List Char) : List Char := cs.dropWhile wsChar

/-- JSON parser (for checking that payloads are valid JSON): read string
body characters up to the closing quote.  The payload grammar needs no
escape sequences, objects of string and integer fields only. -/
def parseStringBody : List Char → Option (List Char × List Char)
  | [] => none
  | c :: cs =>
      if c = '"' then some ([], cs)
      else
        match parseStringBody cs with
        | some (body, rest) => some (c :: body, rest)
        | none => none

def parseJString : List Char → Option (String × List Char)
  | '"' :: cs =>
      match parseStringBody cs with
      | some (body, rest) => some (String.mk body, rest)
      | none => none
  | _ => none

def parseNat (cs : List Char) : Option (ℕ × List Char) :=
  match cs with
  | c :: _ =>
      if c.isDigit then
        some ((parseDigitsAux 0 0 cs).1, (parseDigitsAux 0 0 cs).2.2)
      else none
  | [] => none

def parseJValue (cs : List Char) : Option (Json × List Char) :=
  match cs with
  | c :: cs2 =>
      if c = '"' then (parseJString (c :: cs2)).map (fun r => (Json.jstr r.1, r.2))
      else if c = '-' then (parseNat cs2).map (fun r => (Json.jint (-(r.1 : ℤ)), r.2))
      else (parseNat (c :: cs2)).map (fun r => (Json.jint (r.1 : ℤ), r.2))
  | [] => none

def parseJField (cs : List Char) : Option ((String × Json) × List Char) :=
  match parseJString (skipWs cs) with
  | some (k, cs2) =>
      match skipWs cs2 with
      | ':' :: cs3 =>
          match parseJValue (skipWs cs3) with
          | some (v, cs4) => some ((k, v), cs4)
          | none => none
      | _ => none
  | none => none

def parseJFields : ℕ → List Char → Option (List (String × Json) × List Char)
  | 0, _ => none
  | fuel + 1, cs =>
      match parseJField cs with
      | some (f, cs2) =>
          match skipWs cs2 with
          | c :: cs3 =>
              if c = ',' then
                match parseJFields fuel cs3 with
                | some (fs, rest) => some (f :: fs, rest)
                | none => none
              else if c = closeBraceChar then some ([f], cs3)
              else none
          | [] => none
      | none => none

/-- Parse a complete JSON object document: `\x7b`, fields, `\x7d`,
nothing but whitespace around; `none` if the input is not such a
document. -/
def parseJson (s : String) : Option Json :=
  match skipWs s.data with
  | c :: cs =>
      if c = openBraceChar then
        match skipWs cs with
        | c2 :: cs2 =>
            if c2 = closeBraceChar then
              (if skipWs cs2 = [] then some (Json.jobj []) else none)
            else
              match parseJFields (c2 :: cs2).length (c2 :: cs2) with
              | some (fs, rest) =>
                  if skipWs rest = [] then some (Json.jobj fs) else none
              | none => none
        | [] => none
      else none
  | [] => none

/-- The payload string built by `authRequest` before base64 encoding:
`"\x7b\"request\":\"" + request + "\",\"nonce\":\"" + to_string(nonce)`
followed by `"\"\x7d"` when the options fragment is empty and by
`"\", " + options + "\x7d"` otherwise. -/
def mkPayload (request : String) (nonce : ℕ) (options : String) : String :=
  "\x7b\"request\":\"" ++ request ++ "\",\"nonce\":\"" ++ natRepr nonce ++
    (if options = "" then "\"\x7d" else "\", " ++ options ++ "\x7d")

/-- One caller-supplied option field rendered the way the call sites
render them (`sendOrder`'s `ostringstream`, `isOrderComplete`'s
concatenation): a quoted string value or a bare integer value. -/
def renderField (f : String × Json) : String :=
  match f.2 with
  | Json.jstr v => "\"" ++ f.1 ++ "\":\"" ++ v ++ "\""
  | Json.jint z => "\"" ++ f.1 ++ "\":" ++ intRepr z
  | _ => ""

/-- One caller-supplied option field rendered the way the call sites
render them (`sendOrder`'s `ostringstream`, `isOrderComplete`'s
concatenation): a quoted string value or a bare integer value. -/
def renderFields : List (String × Json) → String
  | [] => ""
  | [f] => renderField f
  | f :: f2 :: fs => renderField f ++ ", " ++ renderFields (f2 :: fs)

def valueChars : Json → List Char
  | Json.jstr v => '"' :: v.data ++ ['"']
  | Json.jint z => (intRepr z).data
  | _ => []

def fieldChars (f : String × Json) : List Char :=
  '"' :: f.1.data ++ '"' :: ':' :: valueChars f.2

/-- Characters that keep the hand-concatenated payload well formed: no
quote, no backslash, ASCII. -/
def wfChar (c : Char) : Prop := c ≠ '"' ∧ c ≠ '\\' ∧ c.toNat < 128

def wfString (s : String) : Prop := ∀ c ∈ s.data, wfChar c

def wfValue : Json → Prop
  | Json.jstr v => wfString v
  | Json.jint _ => True
  | _ => False

def wfField (f : String × Json) : Prop := wfString f.1 ∧ wfValue f.2

def wfFields (fs : List (String × Json)) : Prop := ∀ f ∈ fs, wfField f

/-- The character sequences that render a nonempty field list: each field
as `fieldChars`, consecutive fields separated by a comma and optional
whitespace.  Both the `","` separator `authRequest` places between
`request` and `nonce` and the `", "` separators of option fragments fit
this shape. -/
inductive FieldsChars : List (String × Json) → List Char → Prop where
  | single (f : String × Json) : FieldsChars [f] (fieldChars f)
  | cons (f : String × Json) (fs : List (String × Json)) (ws cs : List Char) :
      (∀ c ∈ ws, wsChar c = true) →
      FieldsChars fs cs →
      FieldsChars (f :: fs) (fieldChars f ++ ',' :: (ws ++ cs))

/-- The bytes of an ASCII payload string. -/
def strBytes (s : String) : List ℕ := s.data.map Char.toNat

/-- Lists that do not begin with a decimal digit (so a preceding numeral
parse stops exactly at the boundary). -/
def notDigitStart : List Char → Prop
  | c :: _ => c.isDigit = false
  | [] => True

instance (c : Char) : Decidable (wfChar c) := by
  unfold wfChar
  infer_instance

instance (s : String) : Decidable (wfString s) := by
  unfold wfString
  exact List.decidableBAll _ _


theorem prefixVol_nil (n : ℕ) : prefixVol [] n = 0 := by
  simp [prefixVol]

theorem prefixVol_cons (l : ℚ × ℚ) (book : BookSide) (n : ℕ) :
    prefixVol (l :: book) (n + 1) = l.2 + prefixVol book n := by
  simp [prefixVol]

theorem prefixVol_zero (book : BookSide) : prefixVol book 0 = 0 := by
  simp [prefixVol]

theorem jsonIsFalse_eq_true_iff (v : Option Json) :
    jsonIsFalse v = true ↔ v = some (Json.jbool false) := by
  constructor
  · intro h
    match v with
    | some (Json.jbool false) => rfl
    | none => simp [jsonIsFalse] at h
    | some Json.jnull => simp [jsonIsFalse] at h
    | some (Json.jbool true) => simp [jsonIsFalse] at h
    | some (Json.jint _) => simp [jsonIsFalse] at h
    | some (Json.jreal _) => simp [jsonIsFalse] at h
    | some (Json.jstr _) => simp [jsonIsFalse] at h
    | some (Json.jarr _) => simp [jsonIsFalse] at h
    | some (Json.jobj _) => simp [jsonIsFalse] at h
  · intro h; subst h; rfl

/-- C5: for every exchange state (any `respond` function), calling
`isOrderComplete` with the sentinel order identifier `"0"` returns `true`
and performs no network request at all. -/
theorem c5_sentinel_short_circuits (respond : String → String → Json) :
    isOrderComplete respond "0" = (true, []) := rfl

/-- C6: for every non-sentinel order identifier, `isOrderComplete` reports
completion exactly when the `"is_live"` field of the status response is the
JSON value `false`; a missing field or any other value yields `false`. -/
theorem c6_complete_iff_is_live_false (respond : String → String → Json)
    (orderId : String) (h : orderId ≠ "0") :
    (isOrderComplete respond orderId).1 = true ↔
      jsonObjectGet (respond "/v1/order/status" (orderIdOptions orderId)) "is_live"
        = some (Json.jbool false) := by
  rw [isOrderComplete, if_neg h]
  exact jsonIsFalse_eq_true_iff _

theorem c6_complete_iff_is_live_false_witness :
    ("42" : String) ≠ "0" ∧
    (isOrderComplete (fun _ _ => Json.jobj [("is_live", Json.jbool false)]) "42").1
      = true := by
  refine ⟨by decide, ?_⟩
  exact (c6_complete_iff_is_live_false
    (fun _ _ => Json.jobj [("is_live", Json.jbool false)]) "42" (by decide)).mpr rfl

/-- C2 evidence: the nonce is derived purely from the observed wall clock
with no clamping against the previously issued nonce, so two successive
`authRequest` calls that observe a backward clock step (here from
1.5 s to 1.4 s) emit strictly decreasing nonces, violating the required
non-decreasing property. -/
theorem c2_nonce_decreases_when_clock_steps_back :
    authNonces [(1, 500000), (1, 400000)] = [1500, 1400] ∧
    ¬ List.Sorted (· ≤ ·) (authNonces [(1, 500000), (1, 400000)]) := by
  refine ⟨by decide, ?_⟩
  decide

theorem getLimitPriceLoop_reaches (threshold : ℚ) :
    ∀ (book : BookSide) (t p : ℚ) (k : ℕ) (hk : k < book.length),
      t + prefixVol book (k + 1) ≥ threshold →
      (∀ j, j < k → t + prefixVol book (j + 1) < threshold) →
      getLimitPriceLoop threshold t p book = (book.get ⟨k, hk⟩).1
  | [], _, _, k, hk => by simp at hk
  | (price, vol) :: rest, t, p, 0, hk => by
      intro hreach _
      rw [prefixVol_cons, prefixVol_zero] at hreach
      simp only [getLimitPriceLoop]
      rw [if_pos (by linarith)]
      rfl
  | (price, vol) :: rest, t, p, k + 1, hk => by
      intro hreach hmin
      have h0 := hmin 0 (Nat.succ_pos k)
      rw [prefixVol_cons, prefixVol_zero] at h0
      simp only [getLimitPriceLoop]
      rw [if_neg (by linarith)]
      have hk2 : k < rest.length := by simpa using hk
      have ih := getLimitPriceLoop_reaches threshold rest (t + vol) price k hk2
        (by rw [prefixVol_cons] at hreach; linarith)
        (fun j hj => by
          have := hmin (j + 1) (Nat.succ_lt_succ hj)
          rw [prefixVol_cons] at this; linarith)
      rw [ih]
      rfl

/-- C1: whenever some prefix of the (best-price-first) book side
accumulates at least `|volume| * orderBookFactor`, `getLimitPrice` returns
the price of the first level at which the cumulative volume reaches that
threshold. -/
theorem c1_getLimitPrice_first_level_reaching_threshold
    (orderBookFactor volume : ℚ) (book : BookSide) (k : ℕ)
    (hk : k < book.length)
    (hreach : prefixVol book (k + 1) ≥ |volume| * orderBookFactor)
    (hmin : ∀ j, j < k → prefixVol book (j + 1) < |volume| * orderBookFactor) :
    getLimitPrice orderBookFactor volume book = (book.get ⟨k, hk⟩).1 := by
  rw [getLimitPrice]
  exact getLimitPriceLoop_reaches _ book 0 0 k hk (by simpa using hreach)
    (fun j hj => by simpa using hmin j hj)

theorem c1_getLimitPrice_first_level_reaching_threshold_witness :
    getLimitPrice 1 (5/2) [((100 : ℚ), (1 : ℚ)), (99, 2), (98, 5)] = 99 := by
  have h := c1_getLimitPrice_first_level_reaching_threshold 1 (5/2)
    [((100 : ℚ), (1 : ℚ)), (99, 2), (98, 5)] 1 (by norm_num)
    (by norm_num [prefixVol, abs_of_nonneg])
    (by
      intro j hj
      interval_cases j
      norm_num [prefixVol, abs_of_nonneg])
  simpa using h

theorem getLimitPriceLoop_exhausts (threshold : ℚ) :
    ∀ (book : BookSide) (t p : ℚ),
      (∀ j, j < book.length → t + prefixVol book (j + 1) < threshold) →
      ∀ hne : book ≠ [],
      getLimitPriceLoop threshold t p book = (book.getLast hne).1
  | [], _, _, _, hne => absurd rfl hne
  | (price, vol) :: rest, t, p, hbelow, hne => by
      have h0 := hbelow 0 (Nat.succ_pos _)
      rw [prefixVol_cons, prefixVol_zero] at h0
      simp only [getLimitPriceLoop]
      rw [if_neg (by linarith)]
      match rest with
      | [] => rfl
      | r :: rs =>
          have ih := getLimitPriceLoop_exhausts threshold (r :: rs) (t + vol) price
            (fun j hj => by
              have := hbelow (j + 1) (by simpa using Nat.succ_lt_succ hj)
              rw [prefixVol_cons] at this; linarith)
            (by simp)
          exact ih

/-- C8: if every prefix of the book side stays strictly below
`|volume| * orderBookFactor` (the side is exhausted before the threshold
is reached), `getLimitPrice` returns the price of the last, worst level;
and on an empty book side it returns `0.0`. -/
theorem c8_getLimitPrice_exhausted_last_level_and_empty_zero :
    (∀ (orderBookFactor volume : ℚ) (book : BookSide) (hne : book ≠ []),
        (∀ j, j < book.length →
          prefixVol book (j + 1) < |volume| * orderBookFactor) →
        getLimitPrice orderBookFactor volume book = (book.getLast hne).1)
    ∧ (∀ orderBookFactor volume : ℚ,
        getLimitPrice orderBookFactor volume [] = 0) := by
  constructor
  · intro f v book hne hbelow
    rw [getLimitPrice]
    exact getLimitPriceLoop_exhausts _ book 0 0
      (fun j hj => by simpa using hbelow j hj) hne
  · intro f v
    rfl

theorem c8_getLimitPrice_exhausted_last_level_and_empty_zero_witness :
    getLimitPrice 1 10 [((100 : ℚ), (1 : ℚ)), (99, 2)] = 99 ∧
    getLimitPrice 1 10 ([] : BookSide) = 0 := by
  constructor
  · have h := c8_getLimitPrice_exhausted_last_level_and_empty_zero.1 1 10
      [((100 : ℚ), (1 : ℚ)), (99, 2)] (by simp)
      (by
        intro j hj
        simp only [List.length_cons, List.length_nil] at hj
        interval_cases j <;> norm_num [prefixVol, abs_of_nonneg])
    simpa using h
  · exact c8_getLimitPrice_exhausted_last_level_and_empty_zero.2 1 10

theorem getAvailScan_no_match (currency : String) (l : List Json)
    (h : ∀ e ∈ l, ∀ t c a, unpackBalanceEntry e = some (t, c, a) →
      ¬(t = "trading" ∧ c = currency)) :
    getAvailScan currency l = some 0 := by
  induction l with
  | nil => rfl
  | cons e rest ih =>
      have hrest := ih (fun e2 he2 t c a hu => h e2 (by simp [he2]) t c a hu)
      cases hu : unpackBalanceEntry e with
      | none => simp [getAvailScan, hu, hrest]
      | some tca =>
          obtain ⟨t, c, a⟩ := tca
          have hnm := h e (by simp) t c a hu
          simp [getAvailScan, hu, hnm, hrest]

theorem getAvailScan_append_no_match (currency : String) (l1 l2 : List Json)
    (h : ∀ e ∈ l1, ∀ t c a, unpackBalanceEntry e = some (t, c, a) →
      ¬(t = "trading" ∧ c = currency)) :
    getAvailScan currency (l1 ++ l2) = getAvailScan currency l2 := by
  induction l1 with
  | nil => rfl
  | cons e rest ih =>
      have hrest := ih (fun e2 he2 t c a hu => h e2 (by simp [he2]) t c a hu)
      cases hu : unpackBalanceEntry e with
      | none => simp [getAvailScan, hu, hrest]
      | some tca =>
          obtain ⟨t, c, a⟩ := tca
          have hnm := h e (by simp) t c a hu
          simp [getAvailScan, hu, hnm, hrest]

/-- C7: if no well-formed balance entry has type `"trading"` and the
requested currency, `getAvail` returns `0.0` (structurally malformed
entries notwithstanding); and a malformed entry is simply skipped, the
scan continuing over the remaining entries. -/
theorem c7_getAvail_no_trading_match_zero_and_skip_malformed :
    (∀ (root : Json) (currency : String),
      (∀ e ∈ jsonArrayElems root, ∀ t c a,
        unpackBalanceEntry e = some (t, c, a) →
        ¬(t = "trading" ∧ c = currency)) →
      getAvail root currency = some 0)
    ∧ (∀ (currency : String) (e : Json) (rest : List Json),
      unpackBalanceEntry e = none →
      getAvailScan currency (e :: rest) = getAvailScan currency rest) := by
  constructor
  · intro root currency h
    exact getAvailScan_no_match currency _
      (fun e he => h e (List.mem_reverse.mp he))
  · intro currency e rest hu
    simp [getAvailScan, hu]

theorem c7_getAvail_no_trading_match_zero_and_skip_malformed_witness :
    getAvail (Json.jarr [Json.jobj [("type", Json.jstr "exchange"),
        ("currency", Json.jstr "BTC"), ("amount", Json.jstr "1.0")],
      Json.jobj []]) "BTC" = some 0 := by
  apply c7_getAvail_no_trading_match_zero_and_skip_malformed.1
  intro e he t c a hu
  simp only [jsonArrayElems, List.mem_cons, List.not_mem_nil, or_false] at he
  rcases he with rfl | rfl
  · rw [show unpackBalanceEntry (Json.jobj [("type", Json.jstr "exchange"),
        ("currency", Json.jstr "BTC"), ("amount", Json.jstr "1.0")])
      = some ("exchange", "BTC", "1.0") from rfl] at hu
    cases hu
    rintro ⟨h1, _⟩
    exact absurd h1 (by decide)
  · rw [show unpackBalanceEntry (Json.jobj []) = none from rfl] at hu
    cases hu

/-- C9: the balance array is scanned from its highest index downward and
the scan stops at the first well-formed match found, so when several
well-formed entries have type `"trading"` and the requested currency,
`getAvail` returns the amount of the last such entry in array order. -/
theorem c9_getAvail_last_match_in_array_order
    (currency : String) (xs ys : List Json) (e : Json) (t c a : String) (q : ℚ)
    (hu : unpackBalanceEntry e = some (t, c, a))
    (ht : t = "trading") (hc : c = currency)
    (ha : stodQ a = some q)
    (hys : ∀ e2 ∈ ys, ∀ t2 c2 a2, unpackBalanceEntry e2 = some (t2, c2, a2) →
      ¬(t2 = "trading" ∧ c2 = currency)) :
    getAvail (Json.jarr (xs ++ e :: ys)) currency = some q := by
  rw [getAvail]
  rw [show jsonArrayElems (Json.jarr (xs ++ e :: ys)) = xs ++ e :: ys from rfl]
  rw [List.reverse_append, List.reverse_cons, List.append_assoc]
  rw [getAvailScan_append_no_match currency _ _
    (fun e2 he2 => hys e2 (List.mem_reverse.mp he2))]
  simp only [List.singleton_append]
  simp [getAvailScan, hu, ht, hc, ha]

theorem c9_getAvail_last_match_in_array_order_witness :
    getAvail (Json.jarr [
      Json.jobj [("type", Json.jstr "trading"), ("currency", Json.jstr "BTC"),
        ("amount", Json.jstr "1.5")],
      Json.jobj [("type", Json.jstr "trading"), ("currency", Json.jstr "BTC"),
        ("amount", Json.jstr "2.5")]]) "BTC" = some (5/2) := by
  have h25 : stodQ "2.5" = some (5/2) := by
    have hd : "2.5".data = ['2', '.', '5'] := rfl
    simp [stodQ, hd, parseDigitsAux, stodSign, isSpaceChar, stodExpFactor]
    norm_num
  have h := c9_getAvail_last_match_in_array_order "BTC"
    [Json.jobj [("type", Json.jstr "trading"), ("currency", Json.jstr "BTC"),
      ("amount", Json.jstr "1.5")]] []
    (Json.jobj [("type", Json.jstr "trading"), ("currency", Json.jstr "BTC"),
      ("amount", Json.jstr "2.5")])
    "trading" "BTC" "2.5" (5/2) rfl rfl rfl h25 (by simp)
  simpa using h

/-- C3 counterexample: on a ticker response whose `"bid"` field is the
non-numeric string `"abc"`, `std::stod` throws (modelled by `none`), so
`getQuote` raises instead of returning `0.0` for that side. -/
theorem c3_counterexample_stod_throws_on_non_numeric :
    getQuote (Json.jobj [("bid", Json.jstr "abc"), ("ask", Json.jstr "1.0")])
      = none ∧
    getQuote (Json.jobj [("bid", Json.jstr "abc"), ("ask", Json.jstr "1.0")])
      ≠ some (0, 1) := by
  have hb : jsonStringValue (jsonObjectGet
      (Json.jobj [("bid", Json.jstr "abc"), ("ask", Json.jstr "1.0")]) "bid")
      = some "abc" := rfl
  have habc : stodQ "abc" = none := by
    have hd : "abc".data = ['a', 'b', 'c'] := rfl
    simp [stodQ, hd, parseDigitsAux, stodSign, isSpaceChar]
  have h : getQuote (Json.jobj [("bid", Json.jstr "abc"),
      ("ask", Json.jstr "1.0")]) = none := by
    simp [getQuote, quoteSide, hb, habc]
  exact ⟨h, by simp [h]⟩

/-- C3 (amended): the adapter defaults to `0.0` only when a quote field is
absent or not a JSON string; when the field is a string with no numeric
prefix, `std::stod` throws and the exception escapes `getQuote`, and
likewise `getAvail` propagates the `std::stod` exception when the matched
amount string is non-numeric (unpack failures are still skipped). -/
theorem c3_amended_defaults_only_for_missing_fields :
    (∀ root : Json,
      jsonStringValue (jsonObjectGet root "bid") = none →
      jsonStringValue (jsonObjectGet root "ask") = none →
      getQuote root = some (0, 0))
    ∧ (∀ (root : Json) (s : String),
      jsonStringValue (jsonObjectGet root "bid") = some s →
      stodQ s = none →
      getQuote root = none)
    ∧ (∀ (currency : String) (e : Json) (rest : List Json) (t c a : String),
      unpackBalanceEntry e = some (t, c, a) →
      t = "trading" → c = currency → stodQ a = none →
      getAvailScan currency (e :: rest) = none) := by
  refine ⟨?_, ?_, ?_⟩
  · intro root hb ha
    simp [getQuote, quoteSide, hb, ha]
  · intro root s hb hs
    simp [getQuote, quoteSide, hb, hs]
  · intro currency e rest t c a hu ht hc ha
    simp [getAvailScan, hu, ht, hc, ha]

theorem c3_amended_defaults_only_for_missing_fields_witness :
    getQuote (Json.jobj []) = some (0, 0) ∧
    getQuote (Json.jobj [("bid", Json.jstr "xyz"), ("ask", Json.jstr "3.0")])
      = none ∧
    getAvailScan "USD" [Json.jobj [("type", Json.jstr "trading"),
      ("currency", Json.jstr "USD"), ("amount", Json.jstr "oops")]] = none := by
  have hxyz : stodQ "xyz" = none := by
    have hd : "xyz".data = ['x', 'y', 'z'] := rfl
    simp [stodQ, hd, parseDigitsAux, stodSign, isSpaceChar]
  have hoops : stodQ "oops" = none := by
    have hd : "oops".data = ['o', 'o', 'p', 's'] := rfl
    simp [stodQ, hd, parseDigitsAux, stodSign, isSpaceChar]
  exact ⟨c3_amended_defaults_only_for_missing_fields.1 (Json.jobj []) rfl rfl,
    c3_amended_defaults_only_for_missing_fields.2.1 _ "xyz" rfl hxyz,
    c3_amended_defaults_only_for_missing_fields.2.2 "USD" _ [] _ _ _ rfl rfl rfl
      hoops⟩

theorem digitCount_pos (n : ℕ) : 1 ≤ digitCount n := by
  rw [digitCount]
  split
  · exact le_refl 1
  · omega

theorem lt_pow_digitCount (n : ℕ) : n < 10 ^ digitCount n := by
  induction n using Nat.strong_induction_on with
  | _ n ih =>
      rw [digitCount]
      split
      · simpa using by omega
      · rename_i h
        have ihd := ih (n / 10) (by omega)
        rw [pow_succ]
        omega

theorem pow_digitCount_pred_le (n : ℕ) (hn : 1 ≤ n) :
    10 ^ (digitCount n - 1) ≤ n := by
  induction n using Nat.strong_induction_on with
  | _ n ih =>
      rw [digitCount]
      split
      · simpa using hn
      · rename_i h
        have ihd := ih (n / 10) (by omega) (by omega)
        have h1 := digitCount_pos (n / 10)
        have : 10 ^ (digitCount (n / 10) + 1 - 1) = 10 * 10 ^ (digitCount (n / 10) - 1) := by
          rw [Nat.add_sub_cancel]
          conv_lhs => rw [show digitCount (n / 10) = digitCount (n / 10) - 1 + 1 by omega]
          rw [pow_succ]
          ring
        rw [this]
        omega

theorem digitCount_le_of_lt_pow (n k : ℕ) (hk : 1 ≤ k) (h : n < 10 ^ k) :
    digitCount n ≤ k := by
  induction n using Nat.strong_induction_on generalizing k with
  | _ n ih =>
      rw [digitCount]
      split
      · exact hk
      · rename_i hn
        have hk2 : 2 ≤ k := by
          by_contra hc
          have : k = 1 := by omega
          subst this
          simp at h
          omega
        have hd : n / 10 < 10 ^ (k - 1) := by
          have : 10 ^ k = 10 * 10 ^ (k - 1) := by
            conv_lhs => rw [show k = k - 1 + 1 by omega]
            rw [pow_succ]; ring
          rw [this] at h
          omega
        have := ih (n / 10) (by omega) (k - 1) (by omega) hd
        omega

theorem qexp_upper (q : ℚ) (hq : 0 < q) : q < (10 : ℚ) ^ (qexp q + 1) := by
  rw [qexp]
  split
  · rename_i h1
    set dc := digitCount (⌊q⌋).toNat with hdc
    have hfl : (⌊q⌋).toNat < 10 ^ dc := lt_pow_digitCount _
    have hge : (0 : ℤ) ≤ ⌊q⌋ := Int.floor_nonneg.mpr (by linarith)
    have hqlt : q < ⌊q⌋ + 1 := Int.lt_floor_add_one q
    have hcast : ((⌊q⌋).toNat : ℚ) = ((⌊q⌋ : ℤ) : ℚ) := by
      exact_mod_cast congrArg (fun z : ℤ => (z : ℚ)) (Int.toNat_of_nonneg hge)
    have hp : ((dc : ℤ) - 1 + 1) = (dc : ℤ) := by ring
    rw [hp, zpow_natCast]
    have : ((⌊q⌋).toNat : ℚ) + 1 ≤ ((10 : ℚ)) ^ dc := by
      have h2 : ((⌊q⌋).toNat + 1 : ℕ) ≤ 10 ^ dc := hfl
      exact_mod_cast h2
    calc q < ⌊q⌋ + 1 := hqlt
      _ = ((⌊q⌋).toNat : ℚ) + 1 := by rw [hcast]
      _ ≤ (10 : ℚ) ^ dc := this
  · rename_i h1
    have hq1 : q < 1 := lt_of_not_le h1
    have hr : 1 < 1 / q := one_lt_one_div hq hq1
    have hrpos : 0 < 1 / q := by positivity
    have hfl1 : (1 : ℤ) ≤ ⌊1 / q⌋ := Int.le_floor.mpr (by exact_mod_cast hr.le)
    set dcr := digitCount (⌊1 / q⌋).toNat with hdcr
    have hdc1 : 1 ≤ dcr := digitCount_pos _
    have hlow : 10 ^ (dcr - 1) ≤ (⌊1 / q⌋).toNat :=
      pow_digitCount_pred_le _ (by omega)
    have hzq : (10 : ℚ) ^ ((dcr : ℤ) - 1) ≤ 1 / q := by
      have h2 : ((10 ^ (dcr - 1) : ℕ) : ℚ) ≤ ((⌊1 / q⌋).toNat : ℚ) := by
        exact_mod_cast hlow
      have h3 : ((⌊1 / q⌋).toNat : ℚ) = ((⌊1 / q⌋ : ℤ) : ℚ) := by
        exact_mod_cast congrArg (fun z : ℤ => (z : ℚ))
          (Int.toNat_of_nonneg (by omega))
      have h4 : ((⌊1 / q⌋ : ℤ) : ℚ) ≤ 1 / q := Int.floor_le _
      have h5 : (10 : ℚ) ^ ((dcr : ℤ) - 1) = ((10 ^ (dcr - 1) : ℕ) : ℚ) := by
        rw [show (dcr : ℤ) - 1 = ((dcr - 1 : ℕ) : ℤ) by omega, zpow_natCast]
        push_cast
        ring
      rw [h5]
      linarith
    have hmul : q * (10 : ℚ) ^ ((dcr : ℤ) - 1) ≤ 1 := by
      have h6 := mul_le_mul_of_nonneg_left hzq hq.le
      rwa [mul_one_div, div_self (ne_of_gt hq)] at h6
    have hqle : q ≤ (10 : ℚ) ^ (-((dcr : ℤ) - 1)) := by
      rw [zpow_neg, ← one_div]
      exact (le_div_iff₀ (by positivity)).mpr hmul
    split
    · rename_i h2
      have hstep : (10 : ℚ) ^ (-((dcr : ℤ) - 1)) < (10 : ℚ) ^ (-((dcr : ℤ) - 1) + 1) := by
        apply zpow_lt_zpow_right₀ (by norm_num)
        omega
      linarith
    · rename_i h2
      have := lt_of_not_le h2
      have hp : -((dcr : ℤ) - 1) - 1 + 1 = -((dcr : ℤ) - 1) := by ring
      rw [hp]
      linarith

theorem mant6_lt (q : ℚ) (hq : 0 < q) : (mant6 q).1 < 1000000 := by
  rw [mant6]
  have hup := qexp_upper q hq
  have hzpos : (0 : ℚ) < (10 : ℚ) ^ ((5 : ℤ) - qexp q) := by positivity
  have hprod : q * (10 : ℚ) ^ ((5 : ℤ) - qexp q) < 1000000 := by
    have h1 : q * (10 : ℚ) ^ ((5 : ℤ) - qexp q) <
        (10 : ℚ) ^ (qexp q + 1) * (10 : ℚ) ^ ((5 : ℤ) - qexp q) :=
      mul_lt_mul_of_pos_right hup hzpos
    have h2 : (10 : ℚ) ^ (qexp q + 1) * (10 : ℚ) ^ ((5 : ℤ) - qexp q)
        = (10 : ℚ) ^ ((6 : ℤ)) := by
      rw [← zpow_add₀ (by norm_num : (10 : ℚ) ≠ 0)]
      rw [show qexp q + 1 + (5 - qexp q) = (6 : ℤ) by ring]
    rw [h2] at h1
    have h3 : ((10 : ℚ)) ^ ((6 : ℤ)) = 1000000 := by norm_num
    linarith
  have hfl : ⌊q * (10 : ℚ) ^ ((5 : ℤ) - qexp q) + 1 / 2⌋ ≤ 1000000 := by
    have : q * (10 : ℚ) ^ ((5 : ℤ) - qexp q) + 1 / 2 < 1000001 := by linarith
    have h4 := Int.floor_lt.mpr (by exact_mod_cast this :
      q * (10 : ℚ) ^ ((5 : ℤ) - qexp q) + 1 / 2 < ((1000001 : ℤ) : ℚ))
    omega
  split
  · norm_num
  · rename_i hne
    have : (⌊q * (10 : ℚ) ^ ((5 : ℤ) - qexp q) + 1 / 2⌋).toNat ≤ 1000000 := by
      omega
    omega

theorem natDigitsAux_append (n : ℕ) (acc : List Char) :
    natDigitsAux n acc = natDigitsAux n [] ++ acc := by
  induction n using Nat.strong_induction_on generalizing acc with
  | _ n ih =>
      by_cases h : n < 10
      · rw [natDigitsAux, if_pos h, natDigitsAux, if_pos h]
        simp
      · have l1 : natDigitsAux n acc
            = natDigitsAux (n / 10) [] ++ (digitChar (n % 10) :: acc) := by
          rw [natDigitsAux, if_neg h, ih (n / 10) (by omega)]
        have l2 : natDigitsAux n []
            = natDigitsAux (n / 10) [] ++ [digitChar (n % 10)] := by
          rw [natDigitsAux, if_neg h, ih (n / 10) (by omega)]
        rw [l1, l2]
        simp

theorem length_natDigitsAux (n : ℕ) :
    (natDigitsAux n []).length = digitCount n := by
  induction n using Nat.strong_induction_on with
  | _ n ih =>
      rw [natDigitsAux, digitCount]
      split
      · simp
      · rename_i h
        rw [natDigitsAux_append]
        simp [ih (n / 10) (by omega)]

theorem digitChar_isDigit (d : ℕ) (h : d < 10) : (digitChar d).isDigit = true := by
  interval_cases d <;> decide

theorem mem_natDigitsAux_isDigit (n : ℕ) :
    ∀ c ∈ natDigitsAux n [], c.isDigit = true := by
  induction n using Nat.strong_induction_on with
  | _ n ih =>
      intro c hc
      rw [natDigitsAux] at hc
      split at hc
      · rename_i h
        simp at hc
        subst hc
        exact digitChar_isDigit n h
      · rename_i h
        rw [natDigitsAux_append] at hc
        rcases List.mem_append.mp hc with h1 | h1
        · exact ih (n / 10) (by omega) c h1
        · simp at h1
          subst h1
          exact digitChar_isDigit (n % 10) (by omega)

theorem isDigit_ne_e (c : Char) (h : c.isDigit = true) : (c != 'e') = true := by
  rcases eq_or_ne c 'e' with rfl | hne
  · exact absurd h (by decide)
  · simpa using hne

theorem dropWhileP_append_all {α : Type} (p : α → Bool) (xs ys : List α)
    (h : ∀ x ∈ xs, p x = true) :
    List.dropWhile p (xs ++ ys) = List.dropWhile p ys := by
  induction xs with
  | nil => rfl
  | cons a l ih =>
      simp only [List.cons_append, List.dropWhile_cons, h a (by simp)]
      exact ih (fun x hx => h x (by simp [hx]))

theorem takeWhileP_append_all {α : Type} (p : α → Bool) (xs : List α) (y : α)
    (ys : List α) (h : ∀ x ∈ xs, p x = true) (hy : p y = false) :
    List.takeWhile p (xs ++ y :: ys) = xs := by
  induction xs with
  | nil => simp [List.takeWhile_cons, hy]
  | cons a l ih =>
      rw [List.cons_append, List.takeWhile_cons, if_pos (h a (by simp)),
        ih (fun x hx => h x (by simp [hx]))]

theorem takeWhileP_all {α : Type} (p : α → Bool) (l : List α)
    (h : ∀ x ∈ l, p x = true) : List.takeWhile p l = l := by
  induction l with
  | nil => rfl
  | cons a t ih =>
      rw [List.takeWhile_cons, if_pos (h a (by simp)),
        ih (fun x hx => h x (by simp [hx]))]

theorem stripZerosRight_length_le (l : List Char) :
    (stripZerosRight l).length ≤ l.length := by
  rw [stripZerosRight]
  calc ((l.reverse.dropWhile (fun c => c == '0')).reverse).length
      = (l.reverse.dropWhile (fun c => c == '0')).length := by
        rw [List.length_reverse]
    _ ≤ l.reverse.length := (List.dropWhile_sublist _).length_le
    _ = l.length := List.length_reverse l

theorem mem_stripZerosRight (l : List Char) (c : Char)
    (h : c ∈ stripZerosRight l) : c ∈ l := by
  rw [stripZerosRight] at h
  rw [List.mem_reverse] at h
  have h2 := List.Sublist.mem h (List.dropWhile_sublist _)
  rwa [List.mem_reverse] at h2

theorem sigCount_renderG6_le (m : ℕ) (e : ℤ) (hm : m < 1000000) :
    sigCount (renderG6 m e) ≤ 6 := by
  have hlen : (natDigitsAux m []).length ≤ 6 := by
    rw [length_natDigitsAux]
    exact digitCount_le_of_lt_pow m 6 (by norm_num)
      (lt_of_lt_of_le hm (by norm_num))
  have hdig := mem_natDigitsAux_isDigit m
  rw [renderG6]
  split
  · cases hds : natDigitsAux m [] with
    | nil =>
        show sigCount ['0'] ≤ 6
        decide
    | cons d1 rest =>
        rw [hds] at hdig hlen
        have hd1 : d1.isDigit = true := hdig d1 (by simp)
        have hrest : ∀ c ∈ rest, c.isDigit = true := fun c hc => hdig c (by simp [hc])
        have hfr : ∀ c ∈ stripZerosRight rest, c.isDigit = true :=
          fun c hc => hrest c (mem_stripZerosRight rest c hc)
        have hfrlen : (stripZerosRight rest).length ≤ rest.length :=
          stripZerosRight_length_le rest
        show sigCount (d1 :: ((if stripZerosRight rest = [] then []
          else '.' :: stripZerosRight rest) ++ expSuffix e)) ≤ 6
        rw [expSuffix, sigCount]
        rw [show d1 :: ((if stripZerosRight rest = [] then []
              else '.' :: stripZerosRight rest) ++ 'e' :: expSuffixRest e)
            = (d1 :: (if stripZerosRight rest = [] then []
              else '.' :: stripZerosRight rest)) ++ 'e' :: expSuffixRest e from rfl]
        rw [takeWhileP_append_all _ _ 'e' _ ?hall (by decide)]
        case hall =>
          intro x hx
          rcases List.mem_cons.mp hx with rfl | hx2
          · exact isDigit_ne_e x hd1
          · by_cases hfe : stripZerosRight rest = []
            · rw [hfe] at hx2
              simp at hx2
            · rw [if_neg hfe] at hx2
              rcases List.mem_cons.mp hx2 with rfl | hx3
              · decide
              · exact isDigit_ne_e x (hfr x hx3)
        by_cases hfe : stripZerosRight rest = []
        · rw [if_pos hfe]
          calc (List.dropWhile (fun c => c == '0')
                (List.filter (fun c => c.isDigit) [d1])).length
              ≤ (List.filter (fun c => c.isDigit) [d1]).length :=
                (List.dropWhile_sublist _).length_le
            _ ≤ [d1].length := (List.filter_sublist _).length_le
            _ ≤ 6 := by simp
        · rw [if_neg hfe]
          have hfilter : List.filter (fun c => c.isDigit)
              (d1 :: '.' :: stripZerosRight rest)
              = d1 :: stripZerosRight rest := by
            rw [List.filter_cons, if_pos (by simpa using hd1)]
            rw [List.filter_cons, if_neg (by decide)]
            rw [List.filter_eq_self.mpr hfr]
          rw [hfilter]
          calc (List.dropWhile (fun c => c == '0')
                (d1 :: stripZerosRight rest)).length
              ≤ (d1 :: stripZerosRight rest).length :=
                (List.dropWhile_sublist _).length_le
            _ = (stripZerosRight rest).length + 1 := by simp
            _ ≤ rest.length + 1 := by omega
            _ ≤ 6 := by simpa using hlen
  · rename_i hsci
    split
    · rename_i hneg
      rw [sigCount]
      have hfr : ∀ c ∈ stripZerosRight (natDigitsAux m []), c.isDigit = true :=
        fun c hc => hdig c (mem_stripZerosRight _ c hc)
      rw [takeWhileP_all _ _ ?hall2]
      case hall2 =>
        intro x hx
        rcases List.mem_cons.mp hx with rfl | hx2
        · decide
        · rcases List.mem_cons.mp hx2 with rfl | hx3
          · decide
          · rcases List.mem_append.mp hx3 with h4 | h4
            · rw [List.eq_of_mem_replicate h4]
              decide
            · exact isDigit_ne_e x (hfr x h4)
      have hfilter : List.filter (fun c => c.isDigit)
          ('0' :: '.' :: (List.replicate ((-e).toNat - 1) '0' ++
            stripZerosRight (natDigitsAux m [])))
          = '0' :: (List.replicate ((-e).toNat - 1) '0' ++
            stripZerosRight (natDigitsAux m [])) := by
        rw [List.filter_cons, if_pos (by decide)]
        rw [List.filter_cons, if_neg (by decide)]
        rw [List.filter_eq_self.mpr]
        intro c hc
        rcases List.mem_append.mp hc with h4 | h4
        · rw [List.eq_of_mem_replicate h4]
          decide
        · exact hfr c h4
      rw [hfilter]
      rw [List.dropWhile_cons]
      rw [if_pos (by decide)]
      rw [dropWhileP_append_all _ _ _
        (fun x hx => by rw [List.eq_of_mem_replicate hx]; decide)]
      calc (List.dropWhile (fun c => c == '0')
            (stripZerosRight (natDigitsAux m []))).length
          ≤ (stripZerosRight (natDigitsAux m [])).length :=
            (List.dropWhile_sublist _).length_le
        _ ≤ (natDigitsAux m []).length := stripZerosRight_length_le _
        _ ≤ 6 := hlen
    · rename_i hpos
      rw [sigCount]
      have hmemtake : ∀ c ∈ (natDigitsAux m []).take (e.toNat + 1),
          c.isDigit = true :=
        fun c hc => hdig c (List.mem_of_mem_take hc)
      have hfr : ∀ c ∈ stripZerosRight ((natDigitsAux m []).drop (e.toNat + 1)),
          c.isDigit = true :=
        fun c hc => hdig c (List.mem_of_mem_drop (mem_stripZerosRight _ c hc))
      rw [takeWhileP_all _ _ ?hall3]
      case hall3 =>
        intro x hx
        rcases List.mem_append.mp hx with h4 | h4
        · exact isDigit_ne_e x (hmemtake x h4)
        · by_cases hfe :
            stripZerosRight ((natDigitsAux m []).drop (e.toNat + 1)) = []
          · rw [if_pos hfe] at h4
            simp at h4
          · rw [if_neg hfe] at h4
            rcases List.mem_cons.mp h4 with rfl | h5
            · decide
            · exact isDigit_ne_e x (hfr x h5)
      rw [List.filter_append]
      rw [List.filter_eq_self.mpr hmemtake]
      have hlen2 : (List.filter (fun c => c.isDigit)
          (if stripZerosRight ((natDigitsAux m []).drop (e.toNat + 1)) = []
           then []
           else '.' :: stripZerosRight
             ((natDigitsAux m []).drop (e.toNat + 1)))).length
          ≤ ((natDigitsAux m []).drop (e.toNat + 1)).length := by
        by_cases hfe :
            stripZerosRight ((natDigitsAux m []).drop (e.toNat + 1)) = []
        · rw [if_pos hfe]
          simp
        · rw [if_neg hfe]
          rw [List.filter_cons, if_neg (by decide)]
          rw [List.filter_eq_self.mpr hfr]
          exact stripZerosRight_length_le _
      calc (List.dropWhile (fun c => c == '0')
            ((natDigitsAux m []).take (e.toNat + 1) ++
              List.filter (fun c => c.isDigit)
              (if stripZerosRight ((natDigitsAux m []).drop (e.toNat + 1)) = []
               then []
               else '.' :: stripZerosRight
                 ((natDigitsAux m []).drop (e.toNat + 1))))).length
          ≤ ((natDigitsAux m []).take (e.toNat + 1) ++
              List.filter (fun c => c.isDigit)
              (if stripZerosRight ((natDigitsAux m []).drop (e.toNat + 1)) = []
               then []
               else '.' :: stripZerosRight
                 ((natDigitsAux m []).drop (e.toNat + 1)))).length :=
            (List.dropWhile_sublist _).length_le
        _ = ((natDigitsAux m []).take (e.toNat + 1)).length +
              (List.filter (fun c => c.isDigit)
              (if stripZerosRight ((natDigitsAux m []).drop (e.toNat + 1)) = []
               then []
               else '.' :: stripZerosRight
                 ((natDigitsAux m []).drop (e.toNat + 1)))).length := by
            simp
        _ ≤ ((natDigitsAux m []).take (e.toNat + 1)).length +
              ((natDigitsAux m []).drop (e.toNat + 1)).length := by omega
        _ = (natDigitsAux m []).length := by
              rw [List.length_take, List.length_drop]
              omega
        _ ≤ 6 := hlen

theorem sigCount_cons_nondigit (c : Char) (l : List Char)
    (h1 : c.isDigit = false) (h2 : (c != 'e') = true) :
    sigCount (c :: l) = sigCount l := by
  rw [sigCount, sigCount, List.takeWhile_cons, if_pos h2, List.filter_cons,
    if_neg (by simp [h1])]

theorem countSigDigits_formatG6_le (q : ℚ) : countSigDigits (formatG6 q) ≤ 6 := by
  rw [formatG6]
  split
  · decide
  · rename_i hz
    split
    · rename_i hneg
      show sigCount ('-' :: formatG6Pos (-q)) ≤ 6
      rw [sigCount_cons_nondigit _ _ (by decide) (by decide)]
      rw [formatG6Pos]
      exact sigCount_renderG6_le _ _ (mant6_lt (-q) (by linarith))
    · rename_i hpos
      show sigCount (formatG6Pos q) ≤ 6
      rw [formatG6Pos]
      have hq : 0 < q := lt_of_le_of_ne (not_lt.mp hpos) (Ne.symm hz)
      exact sigCount_renderG6_le _ _ (mant6_lt q hq)

theorem intRepr_zero : intRepr 0 = "0" := by
  rw [intRepr, if_neg (by norm_num), show ((0 : ℤ)).natAbs = 0 from rfl, natRepr]
  simp [natDigitsAux, digitChar]

/-- C10: `sendOrder` renders quantity and price with default
output-stream formatting — at most 6 significant digits, a price of
12345.678 being transmitted as `"12345.7"` — and the returned order
identifier is the stringified integer `"order_id"` field of the
response, the string `"0"` when that field is absent. -/
theorem c10_sendOrder_default_formatting_and_order_id :
    sendOrderOptions "buy" (31 / 100 : ℚ) (12345678 / 1000 : ℚ)
      = "\"symbol\":\"btcusd\", \"amount\":\"0.31\", \"price\":\"12345.7\", \"exchange\":\"bitfinex\", \"side\":\"buy\", \"type\":\"limit\"" ∧
    (∀ q : ℚ, countSigDigits (formatG6 q) ≤ 6) ∧
    (∀ (root : Json) (n : ℤ),
      jsonObjectGet root "order_id" = some (Json.jint n) →
      sendOrderId root = intRepr n) ∧
    (∀ root : Json, jsonObjectGet root "order_id" = none →
      sendOrderId root = "0") := by
  refine ⟨?_, countSigDigits_formatG6_le, ?_, ?_⟩
  · have h1 : formatG6 (31 / 100 : ℚ) = "0.31" := by
      have he : qexp (31 / 100 : ℚ) = -1 := by
        rw [qexp, if_neg (by norm_num : ¬(1 : ℚ) ≤ 31 / 100)]
        rw [show ⌊1 / (31 / 100 : ℚ)⌋ = 3 by norm_num]
        rw [show ((3 : ℤ)).toNat = 3 from rfl]
        rw [show digitCount 3 = 1 by simp [digitCount]]
        rw [if_neg (by norm_num)]
        norm_num
      have hm : mant6 (31 / 100 : ℚ) = (310000, -1) := by
        rw [mant6, he]
        norm_num
        decide
      rw [formatG6, if_neg (by norm_num), if_neg (by norm_num), formatG6Pos, hm]
      simp [renderG6, natDigitsAux, digitChar, stripZerosRight]
    have h2 : formatG6 (12345678 / 1000 : ℚ) = "12345.7" := by
      have he : qexp (12345678 / 1000 : ℚ) = 4 := by
        rw [qexp, if_pos (by norm_num : (1 : ℚ) ≤ 12345678 / 1000)]
        rw [show ⌊(12345678 / 1000 : ℚ)⌋ = 12345 by norm_num]
        rw [show ((12345 : ℤ)).toNat = 12345 from rfl]
        rw [show digitCount 12345 = 5 by simp [digitCount]]
        norm_num
      have hm : mant6 (12345678 / 1000 : ℚ) = (123457, 4) := by
        rw [mant6, he]
        norm_num
        decide
      rw [formatG6, if_neg (by norm_num), if_neg (by norm_num), formatG6Pos, hm]
      simp [renderG6, natDigitsAux, digitChar, stripZerosRight]
    rw [sendOrderOptions, h1, h2]
    rfl
  · intro root n h
    rw [sendOrderId, h]
    rfl
  · intro root h
    rw [sendOrderId, h]
    exact intRepr_zero

theorem c10_sendOrder_default_formatting_and_order_id_witness :
    sendOrderId (Json.jobj [("order_id", Json.jint 448364249)]) = "448364249" ∧
    sendOrderId (Json.jobj []) = "0" := by
  constructor
  · have h := c10_sendOrder_default_formatting_and_order_id.2.2.1
      (Json.jobj [("order_id", Json.jint 448364249)]) 448364249 rfl
    rw [h, intRepr, if_neg (by norm_num),
      show ((448364249 : ℤ)).natAbs = 448364249 from rfl, natRepr]
    simp [natDigitsAux, digitChar]
  · exact c10_sendOrder_default_formatting_and_order_id.2.2.2 (Json.jobj []) rfl

theorem sextetOf_base64Char : ∀ i, i < 64 → sextetOf (base64Char i) = some i := by
  decide

theorem base64Char_ne_pad : ∀ i, i < 64 → base64Char i ≠ '=' := by
  decide

theorem base64_roundtrip : ∀ (l : List ℕ), (∀ b ∈ l, b < 256) →
    base64Decode (base64Encode l) = some l
  | [] => fun _ => rfl
  | [b1] => fun h => by
      have hb1 : b1 < 256 := h b1 (by simp)
      rw [base64Encode, base64Decode]
      rw [if_pos rfl, if_pos ⟨rfl, rfl⟩]
      rw [sextetOf_base64Char (b1 / 4) (by omega),
        sextetOf_base64Char (b1 % 4 * 16) (by omega)]
      simp
      omega
  | [b1, b2] => fun h => by
      have hb1 : b1 < 256 := h b1 (by simp)
      have hb2 : b2 < 256 := h b2 (by simp)
      rw [base64Encode, base64Decode]
      rw [if_neg (base64Char_ne_pad (b2 % 16 * 4) (by omega))]
      rw [if_pos rfl, if_pos rfl]
      rw [sextetOf_base64Char (b1 / 4) (by omega),
        sextetOf_base64Char (b1 % 4 * 16 + b2 / 16) (by omega),
        sextetOf_base64Char (b2 % 16 * 4) (by omega)]
      simp
      omega
  | b1 :: b2 :: b3 :: rest => fun h => by
      have hb1 : b1 < 256 := h b1 (by simp)
      have hb2 : b2 < 256 := h b2 (by simp)
      have hb3 : b3 < 256 := h b3 (by simp)
      have ih := base64_roundtrip rest (fun b hb => h b (by simp [hb]))
      rw [base64Encode, base64Decode]
      rw [if_neg (base64Char_ne_pad ((b1 * 65536 + b2 * 256 + b3) / 64 % 64)
        (by omega))]
      rw [if_neg (base64Char_ne_pad ((b1 * 65536 + b2 * 256 + b3) % 64)
        (by omega))]
      rw [sextetOf_base64Char ((b1 * 65536 + b2 * 256 + b3) / 262144) (by omega),
        sextetOf_base64Char ((b1 * 65536 + b2 * 256 + b3) / 4096 % 64) (by omega),
        sextetOf_base64Char ((b1 * 65536 + b2 * 256 + b3) / 64 % 64) (by omega),
        sextetOf_base64Char ((b1 * 65536 + b2 * 256 + b3) % 64) (by omega)]
      rw [ih]
      simp
      omega

theorem isDigit_ne_of (c c2 : Char) (h : c.isDigit = true)
    (h2 : c2.isDigit = false) : c ≠ c2 := by
  intro he
  subst he
  rw [h] at h2
  cases h2

theorem wsChar_of_isDigit (c : Char) (h : c.isDigit = true) :
    wsChar c = false := by
  rcases eq_or_ne c ' ' with rfl | h1
  · exact absurd h (by decide)
  · rcases eq_or_ne c '\t' with rfl | h2
    · exact absurd h (by decide)
    · rcases eq_or_ne c '\n' with rfl | h3
      · exact absurd h (by decide)
      · rcases eq_or_ne c '\r' with rfl | h4
        · exact absurd h (by decide)
        · simp [wsChar, h1, h2, h3, h4]

theorem skipWs_cons_not (c : Char) (cs : List Char) (h : wsChar c = false) :
    skipWs (c :: cs) = c :: cs := by
  simp [skipWs, List.dropWhile_cons, h]

theorem skipWs_append_ws (ws cs : List Char) (h : ∀ c ∈ ws, wsChar c = true) :
    skipWs (ws ++ cs) = skipWs cs :=
  dropWhileP_append_all _ ws cs h

theorem parseStringBody_spec (s rest : List Char) (h : ∀ c ∈ s, c ≠ '"') :
    parseStringBody (s ++ '"' :: rest) = some (s, rest) := by
  induction s with
  | nil => simp [parseStringBody]
  | cons c cs ih =>
      rw [List.cons_append, parseStringBody, if_neg (h c (by simp)),
        ih (fun x hx => h x (by simp [hx]))]

theorem parseJString_spec (v : String) (rest : List Char)
    (h : ∀ c ∈ v.data, c ≠ '"') :
    parseJString ('"' :: v.data ++ '"' :: rest) = some (v, rest) := by
  rw [show ('"' :: v.data ++ '"' :: rest) = '"' :: (v.data ++ '"' :: rest)
    from rfl]
  rw [parseJString, parseStringBody_spec v.data rest h]

theorem digitChar_toNat (d : ℕ) (h : d < 10) : (digitChar d).toNat = 48 + d := by
  interval_cases d <;> decide

theorem parseDigitsAux_stop (a c : ℕ) (rest : List Char)
    (h : notDigitStart rest) : parseDigitsAux a c rest = (a, c, rest) := by
  match rest with
  | [] => rfl
  | x :: xs =>
      rw [parseDigitsAux, if_neg]
      rw [show notDigitStart (x :: xs) = (x.isDigit = false) from rfl] at h
      simp [h]

theorem parseDigitsAux_natDigits (n : ℕ) :
    ∀ (a0 c0 : ℕ) (rest : List Char),
      parseDigitsAux a0 c0 (natDigitsAux n [] ++ rest)
        = parseDigitsAux (a0 * 10 ^ digitCount n + n) (c0 + digitCount n) rest := by
  induction n using Nat.strong_induction_on with
  | _ n ih =>
      intro a0 c0 rest
      by_cases h : n < 10
      · rw [natDigitsAux, if_pos h, digitCount, if_pos h]
        rw [List.cons_append, parseDigitsAux, if_pos (digitChar_isDigit n h)]
        rw [digitChar_toNat n h]
        norm_num
      · have hsplit : natDigitsAux n []
            = natDigitsAux (n / 10) [] ++ [digitChar (n % 10)] := by
          rw [natDigitsAux, if_neg h, natDigitsAux_append]
        rw [hsplit, digitCount, if_neg h]
        rw [List.append_assoc, List.singleton_append]
        rw [ih (n / 10) (by omega) a0 c0 (digitChar (n % 10) :: rest)]
        rw [parseDigitsAux, if_pos (digitChar_isDigit (n % 10) (by omega))]
        rw [digitChar_toNat (n % 10) (by omega)]
        have hval : (a0 * 10 ^ digitCount (n / 10) + n / 10) * 10 + (48 + n % 10 - 48)
            = a0 * 10 ^ (digitCount (n / 10) + 1) + n := by
          have hdm : n / 10 * 10 + n % 10 = n := by omega
          have hp : (10 : ℕ) ^ (digitCount (n / 10) + 1)
              = 10 ^ digitCount (n / 10) * 10 := by rw [pow_succ]
          calc (a0 * 10 ^ digitCount (n / 10) + n / 10) * 10 + (48 + n % 10 - 48)
              = a0 * (10 ^ digitCount (n / 10) * 10) + (n / 10 * 10 + n % 10) := by
                ring_nf
                omega
            _ = a0 * 10 ^ (digitCount (n / 10) + 1) + n := by rw [hdm, ← hp]
        rw [hval, Nat.add_assoc]

theorem natDigitsAux_ne_nil (n : ℕ) : natDigitsAux n [] ≠ [] := by
  have h := length_natDigitsAux n
  have h2 := digitCount_pos n
  intro he
  rw [he] at h
  simp at h
  omega

theorem parseNat_spec (n : ℕ) (rest : List Char) (h : notDigitStart rest) :
    parseNat (natDigitsAux n [] ++ rest) = some (n, rest) := by
  cases hds : natDigitsAux n [] with
  | nil => exact absurd hds (natDigitsAux_ne_nil n)
  | cons d ds =>
      have hd : d.isDigit = true := mem_natDigitsAux_isDigit n d (by rw [hds]; simp)
      rw [List.cons_append, parseNat]
      simp only [hd, if_pos]
      rw [← List.cons_append, ← hds, parseDigitsAux_natDigits n 0 0 rest,
        parseDigitsAux_stop _ _ rest h]
      simp

theorem parseJValue_str (v : String) (rest : List Char)
    (h : ∀ c ∈ v.data, c ≠ '"') :
    parseJValue ('"' :: v.data ++ '"' :: rest) = some (Json.jstr v, rest) := by
  rw [show '"' :: v.data ++ '"' :: rest = '"' :: (v.data ++ '"' :: rest) from rfl]
  rw [parseJValue, if_pos rfl]
  rw [show ('"' :: (v.data ++ '"' :: rest)) = '"' :: v.data ++ '"' :: rest
    from rfl]
  rw [parseJString_spec v rest h]
  rfl

theorem parseJValue_int (z : ℤ) (rest : List Char) (h : notDigitStart rest) :
    parseJValue ((intRepr z).data ++ rest) = some (Json.jint z, rest) := by
  by_cases hz : z < 0
  · rw [intRepr, if_pos hz]
    rw [show ("-" ++ natRepr z.natAbs).data
        = '-' :: natDigitsAux z.natAbs [] from rfl]
    rw [List.cons_append, parseJValue, if_neg (by decide), if_pos rfl]
    rw [parseNat_spec z.natAbs rest h]
    simp only [Option.map_some']
    rw [show -((z.natAbs : ℤ)) = z by omega]
  · rw [intRepr, if_neg hz]
    rw [show (natRepr z.natAbs).data = natDigitsAux z.natAbs [] from rfl]
    cases hds : natDigitsAux z.natAbs [] with
    | nil => exact absurd hds (natDigitsAux_ne_nil _)
    | cons d ds =>
        have hd : d.isDigit = true :=
          mem_natDigitsAux_isDigit z.natAbs d (by rw [hds]; simp)
        rw [List.cons_append, parseJValue,
          if_neg (isDigit_ne_of d '"' hd (by decide)),
          if_neg (isDigit_ne_of d '-' hd (by decide))]
        rw [← List.cons_append, ← hds, parseNat_spec z.natAbs rest h]
        simp only [Option.map_some']
        rw [show ((z.natAbs : ℤ)) = z by omega]

theorem parseJField_spec (f : String × Json) (rest ws0 : List Char)
    (hws : ∀ c ∈ ws0, wsChar c = true) (hwf : wfField f)
    (hnd : notDigitStart rest) :
    parseJField (ws0 ++ fieldChars f ++ rest) = some (f, rest) := by
  obtain ⟨f1, f2⟩ := f
  obtain ⟨hk, hv⟩ := hwf
  rw [parseJField]
  rw [show ws0 ++ fieldChars (f1, f2) ++ rest
      = ws0 ++ ('"' :: (f1.data ++ '"' :: ':' :: (valueChars f2 ++ rest))) from by
    simp [fieldChars]]
  rw [skipWs_append_ws _ _ hws, skipWs_cons_not _ _ (by decide)]
  rw [show ('"' :: (f1.data ++ '"' :: ':' :: (valueChars f2 ++ rest)))
      = '"' :: f1.data ++ '"' :: (':' :: (valueChars f2 ++ rest)) from by simp]
  rw [parseJString_spec f1 _ (fun c hc => (hk c hc).1)]
  match f2, hv with
  | Json.jstr v, hv =>
      have hval : parseJValue (skipWs (valueChars (Json.jstr v) ++ rest))
          = some (Json.jstr v, rest) := by
        rw [show valueChars (Json.jstr v) ++ rest
            = '"' :: (v.data ++ '"' :: rest) from by simp [valueChars]]
        rw [skipWs_cons_not _ _ (by decide)]
        rw [show '"' :: (v.data ++ '"' :: rest)
            = '"' :: v.data ++ '"' :: rest from rfl]
        exact parseJValue_str v rest (fun c hc => (hv c hc).1)
      simp [skipWs_cons_not ':' _ (by decide), hval]
  | Json.jint z, hv =>
      have hval : parseJValue (skipWs (valueChars (Json.jint z) ++ rest))
          = some (Json.jint z, rest) := by
        rw [show valueChars (Json.jint z) ++ rest
            = (intRepr z).data ++ rest from rfl]
        have hsk : skipWs ((intRepr z).data ++ rest) = (intRepr z).data ++ rest := by
          by_cases hz : z < 0
          · rw [intRepr, if_pos hz]
            rw [show ("-" ++ natRepr z.natAbs).data
                = '-' :: natDigitsAux z.natAbs [] from rfl]
            rw [List.cons_append]
            exact skipWs_cons_not _ _ (by decide)
          · rw [intRepr, if_neg hz]
            rw [show (natRepr z.natAbs).data = natDigitsAux z.natAbs [] from rfl]
            cases hds : natDigitsAux z.natAbs [] with
            | nil => exact absurd hds (natDigitsAux_ne_nil _)
            | cons d ds =>
                have hd : d.isDigit = true :=
                  mem_natDigitsAux_isDigit z.natAbs d (by rw [hds]; simp)
                rw [List.cons_append]
                exact skipWs_cons_not _ _ (wsChar_of_isDigit d hd)
        rw [hsk]
        exact parseJValue_int z rest hnd
      simp [skipWs_cons_not ':' _ (by decide), hval]

theorem isDigit_toNat_lt (c : Char) (h : c.isDigit = true) : c.toNat < 128 := by
  simp [Char.isDigit] at h
  obtain ⟨h1, h2⟩ := h
  rw [UInt32.le_def] at h2
  have h3 : c.val.toNat ≤ (57 : UInt32).toNat := h2
  have h4 : ((57 : UInt32)).toNat = 57 := rfl
  show c.val.toNat < 128
  omega

theorem FieldsChars_head (fs : List (String × Json)) (cs : List Char)
    (h : FieldsChars fs cs) : ∃ t, cs = '"' :: t := by
  induction h with
  | single f => exact ⟨_, rfl⟩
  | cons f fs ws cs hws hfc ih => exact ⟨_, rfl⟩

theorem FieldsChars_length (fs : List (String × Json)) (cs : List Char)
    (h : FieldsChars fs cs) : fs.length ≤ cs.length := by
  induction h with
  | single f => simp [fieldChars]
  | cons f fs ws cs hws hfc ih =>
      simp only [List.length_cons, List.length_append, fieldChars]
      simp at ih ⊢
      omega

theorem parseJFields_spec (fs : List (String × Json)) (cs : List Char)
    (h : FieldsChars fs cs) :
    ∀ (hwf : wfFields fs) (fuel : ℕ), fs.length ≤ fuel →
    ∀ (ws0 rest : List Char), (∀ c ∈ ws0, wsChar c = true) →
    parseJFields fuel (ws0 ++ cs ++ closeBraceChar :: rest) = some (fs, rest) := by
  induction h with
  | single f =>
      intro hwf fuel hfuel ws0 rest hws0
      cases fuel with
      | zero => simp at hfuel
      | succ fuel =>
          rw [parseJFields]
          rw [parseJField_spec f (closeBraceChar :: rest) ws0 hws0
            (hwf f (by simp))
            (by show closeBraceChar.isDigit = false; decide)]
          have hne : ¬(closeBraceChar = ',') := by decide
          simp [skipWs_cons_not closeBraceChar rest (by decide), hne]
  | cons f fs ws cs hwsl hfc ih =>
      intro hwf fuel hfuel ws0 rest hws0
      cases fuel with
      | zero => simp at hfuel
      | succ fuel =>
          rw [parseJFields]
          rw [show ws0 ++ (fieldChars f ++ ',' :: (ws ++ cs)) ++
                closeBraceChar :: rest
              = ws0 ++ fieldChars f ++
                (',' :: (ws ++ (cs ++ closeBraceChar :: rest))) from by simp]
          rw [parseJField_spec f _ ws0 hws0 (hwf f (by simp))
            (by show (',' : Char).isDigit = false; decide)]
          have hih := ih (fun g hg => hwf g (by simp [hg])) fuel
            (by simpa using hfuel) ws rest hwsl
          simp only [skipWs_cons_not ','
            (ws ++ (cs ++ closeBraceChar :: rest)) (by decide)]
          simp
          rw [List.append_assoc] at hih
          rw [hih]

theorem renderField_data (f : String × Json) (hv : wfValue f.2) :
    (renderField f).data = fieldChars f := by
  obtain ⟨f1, f2⟩ := f
  match f2, hv with
  | Json.jstr v, _ =>
      show ("\"" ++ f1 ++ "\":\"" ++ v ++ "\"").data
        = '"' :: f1.data ++ '"' :: ':' :: ('"' :: v.data ++ ['"'])
      simp [String.data_append]
  | Json.jint z, _ =>
      show ("\"" ++ f1 ++ "\":" ++ intRepr z).data
        = '"' :: f1.data ++ '"' :: ':' :: (intRepr z).data
      simp [String.data_append]

theorem renderFields_chars : ∀ (fs : List (String × Json)), fs ≠ [] →
    (∀ f ∈ fs, wfValue f.2) → FieldsChars fs (renderFields fs).data
  | [], h, _ => absurd rfl h
  | [f], _, hv => by
      rw [show renderFields [f] = renderField f from rfl,
        renderField_data f (hv f (by simp))]
      exact FieldsChars.single f
  | f :: f2 :: fs, _, hv => by
      have hrec := renderFields_chars (f2 :: fs) (by simp)
        (fun g hg => hv g (by simp [hg]))
      rw [show renderFields (f :: f2 :: fs)
          = renderField f ++ ", " ++ renderFields (f2 :: fs) from rfl]
      rw [show (renderField f ++ ", " ++ renderFields (f2 :: fs)).data
          = (renderField f).data ++ (',' :: (' ' :: (renderFields (f2 :: fs)).data))
          from by simp [String.data_append]]
      rw [renderField_data f (hv f (by simp))]
      rw [show (',' :: (' ' :: (renderFields (f2 :: fs)).data))
          = ',' :: ([' '] ++ (renderFields (f2 :: fs)).data) from rfl]
      exact FieldsChars.cons f (f2 :: fs) [' '] _ (by simp [wsChar]) hrec

theorem mkPayload_data_empty (r : String) (n : ℕ) :
    (mkPayload r n "").data
      = openBraceChar :: ((fieldChars ("request", Json.jstr r)
          ++ ',' :: ([] ++ fieldChars ("nonce", Json.jstr (natRepr n))))
          ++ closeBraceChar :: []) := by
  rw [mkPayload, if_pos rfl]
  simp only [String.data_append]
  simp [fieldChars, valueChars, openBraceChar, closeBraceChar]

theorem mkPayload_data_opts (r : String) (n : ℕ) (o : String) (ho : ¬o = "") :
    (mkPayload r n o).data
      = openBraceChar :: ((fieldChars ("request", Json.jstr r)
          ++ ',' :: ([] ++ (fieldChars ("nonce", Json.jstr (natRepr n))
            ++ ',' :: ([' '] ++ o.data))))
          ++ closeBraceChar :: []) := by
  rw [mkPayload, if_neg ho]
  simp only [String.data_append]
  simp [fieldChars, valueChars, openBraceChar, closeBraceChar]

theorem parseJson_run (s : String) (t : List Char) (fs2 : List (String × Json))
    (hdata : s.data = openBraceChar :: '"' :: (t ++ [closeBraceChar]))
    (hfields : parseJFields ('"' :: (t ++ [closeBraceChar])).length
      ('"' :: (t ++ [closeBraceChar])) = some (fs2, [])) :
    parseJson s = some (Json.jobj fs2) := by
  rw [parseJson, hdata]
  rw [skipWs_cons_not openBraceChar _ (by decide)]
  have hne : ¬(('"' : Char) = closeBraceChar) := by decide
  simp only [skipWs_cons_not '"' (t ++ [closeBraceChar]) (by decide), hfields]
  simp [hne, skipWs]

theorem natRepr_wf (n : ℕ) : wfString (natRepr n) := by
  intro c hc
  have hd : c.isDigit = true := mem_natDigitsAux_isDigit n c hc
  exact ⟨isDigit_ne_of c '"' hd (by decide),
    isDigit_ne_of c '\\' hd (by decide), isDigit_toNat_lt c hd⟩

theorem parseJson_mkPayload (r : String) (n : ℕ) (fs : List (String × Json))
    (hr : wfString r) (hf : wfFields fs) :
    parseJson (mkPayload r n (renderFields fs))
      = some (Json.jobj (("request", Json.jstr r)
          :: ("nonce", Json.jstr (natRepr n)) :: fs)) := by
  have hreqwf : wfField ("request", Json.jstr r) :=
    ⟨by show wfString "request"; decide, hr⟩
  have hnonwf : wfField ("nonce", Json.jstr (natRepr n)) :=
    ⟨by show wfString "nonce"; decide, natRepr_wf n⟩
  have hwfall : wfFields (("request", Json.jstr r)
      :: ("nonce", Json.jstr (natRepr n)) :: fs) := by
    intro g hg
    rcases List.mem_cons.mp hg with rfl | hg2
    · exact hreqwf
    · rcases List.mem_cons.mp hg2 with rfl | hg3
      · exact hnonwf
      · exact hf g hg3
  cases fs with
  | nil =>
      have hFC : FieldsChars [("request", Json.jstr r),
          ("nonce", Json.jstr (natRepr n))]
          (fieldChars ("request", Json.jstr r)
            ++ ',' :: ([] ++ fieldChars ("nonce", Json.jstr (natRepr n)))) :=
        FieldsChars.cons _ _ [] _ (by simp) (FieldsChars.single _)
      obtain ⟨t, ht⟩ := FieldsChars_head _ _ hFC
      have hdata := mkPayload_data_empty r n
      rw [ht] at hdata hFC
      rw [show renderFields [] = "" from rfl]
      have hlen := FieldsChars_length _ _ hFC
      have hfields := parseJFields_spec _ _ hFC hwfall
        (('"' :: (t ++ [closeBraceChar])).length)
        (by simp only [List.length_cons, List.length_append,
          List.length_nil] at hlen ⊢; omega) [] [] (by simp)
      rw [show ([] : List Char) ++ '"' :: t ++ closeBraceChar :: []
          = '"' :: (t ++ [closeBraceChar]) from by simp] at hfields
      exact parseJson_run _ t _ (by rw [hdata]; simp) hfields
  | cons f fs2 =>
      have hFC2 := renderFields_chars (f :: fs2) (by simp)
        (fun g hg => (hf g hg).2)
      have ho : ¬renderFields (f :: fs2) = "" := by
        intro he
        obtain ⟨t2, ht2⟩ := FieldsChars_head _ _ hFC2
        rw [he] at ht2
        exact absurd ht2 (by simp [show ("" : String).data = [] from rfl])
      have hFC : FieldsChars (("request", Json.jstr r)
          :: ("nonce", Json.jstr (natRepr n)) :: f :: fs2)
          (fieldChars ("request", Json.jstr r)
            ++ ',' :: ([] ++ (fieldChars ("nonce", Json.jstr (natRepr n))
              ++ ',' :: ([' '] ++ (renderFields (f :: fs2)).data)))) :=
        FieldsChars.cons _ _ [] _ (by simp)
          (FieldsChars.cons _ _ [' '] _ (by simp [wsChar]) hFC2)
      obtain ⟨t, ht⟩ := FieldsChars_head _ _ hFC
      have hdata := mkPayload_data_opts r n (renderFields (f :: fs2)) ho
      rw [ht] at hdata hFC
      have hlen := FieldsChars_length _ _ hFC
      have hfields := parseJFields_spec _ _ hFC hwfall
        (('"' :: (t ++ [closeBraceChar])).length)
        (by simp only [List.length_cons, List.length_append,
          List.length_nil] at hlen ⊢; omega) [] [] (by simp)
      rw [show ([] : List Char) ++ '"' :: t ++ closeBraceChar :: []
          = '"' :: (t ++ [closeBraceChar]) from by simp] at hfields
      exact parseJson_run _ t _ (by rw [hdata]; simp) hfields

theorem mem_intRepr_lt (z : ℤ) : ∀ c ∈ (intRepr z).data, c.toNat < 256 := by
  intro c hc
  by_cases hz : z < 0
  · rw [intRepr, if_pos hz] at hc
    rw [show ("-" ++ natRepr z.natAbs).data
        = '-' :: natDigitsAux z.natAbs [] from rfl] at hc
    rcases List.mem_cons.mp hc with rfl | hc2
    · decide
    · have := isDigit_toNat_lt c (mem_natDigitsAux_isDigit _ c hc2)
      omega
  · rw [intRepr, if_neg hz] at hc
    have := isDigit_toNat_lt c (mem_natDigitsAux_isDigit z.natAbs c hc)
    omega

theorem mem_fieldChars_lt (f : String × Json) (hwf : wfField f) :
    ∀ c ∈ fieldChars f, c.toNat < 256 := by
  obtain ⟨f1, f2⟩ := f
  obtain ⟨hk, hv⟩ := hwf
  intro c hc
  rw [fieldChars] at hc
  rcases List.mem_cons.mp hc with rfl | hc2
  · decide
  rcases List.mem_append.mp hc2 with hcf | hc3
  · have := (hk c hcf).2.2
    omega
  rcases List.mem_cons.mp hc3 with rfl | hc4
  · decide
  rcases List.mem_cons.mp hc4 with rfl | hc5
  · decide
  match f2, hv, hc5 with
  | Json.jstr v, hv, hc5 =>
      rw [valueChars] at hc5
      rcases List.mem_cons.mp hc5 with rfl | hc6
      · decide
      rcases List.mem_append.mp hc6 with hcv | hc7
      · have := (hv c hcv).2.2
        omega
      · rw [List.mem_singleton] at hc7
        subst hc7
        decide
  | Json.jint z, _, hc5 =>
      exact mem_intRepr_lt z c hc5

theorem wsChar_toNat_lt (c : Char) (h : wsChar c = true) : c.toNat < 256 := by
  simp only [wsChar, Bool.or_eq_true, beq_iff_eq] at h
  rcases h with ((rfl | rfl) | rfl) | rfl <;> decide

theorem FieldsChars_mem_lt (fs : List (String × Json)) (cs : List Char)
    (h : FieldsChars fs cs) (hwf : wfFields fs) :
    ∀ c ∈ cs, c.toNat < 256 := by
  induction h with
  | single f =>
      exact mem_fieldChars_lt f (hwf f (by simp))
  | cons f fs ws cs hws hfc ih =>
      intro c hc
      rcases List.mem_append.mp hc with hc1 | hc2
      · exact mem_fieldChars_lt f (hwf f (by simp)) c hc1
      rcases List.mem_cons.mp hc2 with rfl | hc3
      · decide
      rcases List.mem_append.mp hc3 with hcw | hcc
      · exact wsChar_toNat_lt c (hws c hcw)
      · exact ih (fun g hg => hwf g (by simp [hg])) c hcc

theorem mkPayload_bytes_lt (r : String) (n : ℕ) (fs : List (String × Json))
    (hr : wfString r) (hf : wfFields fs) :
    ∀ b ∈ strBytes (mkPayload r n (renderFields fs)), b < 256 := by
  have hreqwf : wfField ("request", Json.jstr r) :=
    ⟨by show wfString "request"; decide, hr⟩
  have hnonwf : wfField ("nonce", Json.jstr (natRepr n)) :=
    ⟨by show wfString "nonce"; decide, natRepr_wf n⟩
  have hwfall : wfFields (("request", Json.jstr r)
      :: ("nonce", Json.jstr (natRepr n)) :: fs) := by
    intro g hg
    rcases List.mem_cons.mp hg with rfl | hg2
    · exact hreqwf
    · rcases List.mem_cons.mp hg2 with rfl | hg3
      · exact hnonwf
      · exact hf g hg3
  intro b hb
  simp only [strBytes, List.mem_map] at hb
  obtain ⟨c, hc, rfl⟩ := hb
  cases fs with
  | nil =>
      have hFC : FieldsChars [("request", Json.jstr r),
          ("nonce", Json.jstr (natRepr n))]
          (fieldChars ("request", Json.jstr r)
            ++ ',' :: ([] ++ fieldChars ("nonce", Json.jstr (natRepr n)))) :=
        FieldsChars.cons _ _ [] _ (by simp) (FieldsChars.single _)
      rw [show renderFields [] = "" from rfl, mkPayload_data_empty r n] at hc
      rcases List.mem_cons.mp hc with rfl | hc2
      · decide
      rcases List.mem_append.mp hc2 with hc3 | hc4
      · exact FieldsChars_mem_lt _ _ hFC hwfall c hc3
      · rw [List.mem_singleton] at hc4
        subst hc4
        decide
  | cons f fs2 =>
      have hFC2 := renderFields_chars (f :: fs2) (by simp)
        (fun g hg => (hf g hg).2)
      have ho : ¬renderFields (f :: fs2) = "" := by
        intro he
        obtain ⟨t2, ht2⟩ := FieldsChars_head _ _ hFC2
        rw [he] at ht2
        exact absurd ht2 (by simp [show ("" : String).data = [] from rfl])
      have hFC : FieldsChars (("request", Json.jstr r)
          :: ("nonce", Json.jstr (natRepr n)) :: f :: fs2)
          (fieldChars ("request", Json.jstr r)
            ++ ',' :: ([] ++ (fieldChars ("nonce", Json.jstr (natRepr n))
              ++ ',' :: ([' '] ++ (renderFields (f :: fs2)).data)))) :=
        FieldsChars.cons _ _ [] _ (by simp)
          (FieldsChars.cons _ _ [' '] _ (by simp [wsChar]) hFC2)
      rw [mkPayload_data_opts r n (renderFields (f :: fs2)) ho] at hc
      rcases List.mem_cons.mp hc with rfl | hc2
      · decide
      rcases List.mem_append.mp hc2 with hc3 | hc4
      · exact FieldsChars_mem_lt _ _ hFC hwfall c hc3
      · rw [List.mem_singleton] at hc4
        subst hc4
        decide

/-- C4: for every request path and caller-supplied option fields whose
strings are quote-free ASCII, the payload built by `authRequest`, once
base64-decoded (base64-decoding inverts the base64 encoding of the
payload bytes), is valid JSON containing exactly the keys `request` (the
path), `nonce` (string-encoded), and the supplied fields merged at the
top level. -/
theorem c4_payload_wellformed
    (request : String) (nonce : ℕ) (fields : List (String × Json))
    (hreq : wfString request) (hf : wfFields fields) :
    parseJson (mkPayload request nonce (renderFields fields))
      = some (Json.jobj (("request", Json.jstr request)
          :: ("nonce", Json.jstr (natRepr nonce)) :: fields))
    ∧ base64Decode (base64Encode
        (strBytes (mkPayload request nonce (renderFields fields))))
      = some (strBytes (mkPayload request nonce (renderFields fields))) :=
  ⟨parseJson_mkPayload request nonce fields hreq hf,
    base64_roundtrip _ (mkPayload_bytes_lt request nonce fields hreq hf)⟩

theorem c4_payload_wellformed_witness :
    parseJson (mkPayload "/v1/balances" 1234 (renderFields []))
      = some (Json.jobj [("request", Json.jstr "/v1/balances"),
          ("nonce", Json.jstr (natRepr 1234))])
    ∧ base64Decode (base64Encode
        (strBytes (mkPayload "/v1/balances" 1234 (renderFields []))))
      = some (strBytes (mkPayload "/v1/balances" 1234 (renderFields []))) :=
  c4_payload_wellformed "/v1/balances" 1234 []
    (by show wfString "/v1/balances"; decide)
    (fun g hg => absurd hg (List.not_mem_nil g))
